import Mathlib

/-!
Verification of the method-extraction core of `craw_java_method.py`.

The embedding models the three pure components of the repository:

* `_brace_matched_end`  — brace-depth boundary location (source lines 149-174);
* `tokenize_code`       — the regex lexer (source lines 139-145);
* `_strip_java_comments_for_check` / `filter_invalid_methods`
                        — comment stripping and line-count filtering
                          (source lines 112-136);
* `extract_methods_from_decls`
                        — the record-assembly loop of
                          `extract_methods_from_file` (source lines 186-206),
                          taken over the declaration tuples that the external
                          AST pass supplies.

Python regex classes are modelled at their ASCII meaning (`[A-Za-z]`, `\d`,
`\s`), strings are lists of characters, and line splitting is on `'\n'`,
which is the only line separator the pipeline itself introduces
(`"\n".join`).  Machine-level concerns do not arise: all quantities are
unbounded Python ints, modelled as `Nat`/`Int`.
-/

/-- ASCII identifier-start class `[A-Za-z_]` of the lexer regex. -/
def isIdentStart (c : Char) : Bool :=
  ('A' ≤ c && c ≤ 'Z') || ('a' ≤ c && c ≤ 'z') || c = '_'

/-- ASCII identifier-continuation class `[A-Za-z0-9_]` of the lexer regex. -/
def isIdentChar (c : Char) : Bool :=
  isIdentStart c || ('0' ≤ c && c ≤ '9')

/-- ASCII digit class `\d` of the lexer regex. -/
def isAsciiDigit (c : Char) : Bool :=
  '0' ≤ c && c ≤ '9'

/-- Python whitespace class `\s` (ASCII part): space, tab, newline,
carriage return, vertical tab, form feed. -/
def pyIsSpace (c : Char) : Bool :=
  c = ' ' || c = '\t' || c = '\n' || c = '\r' || c = '\x0b' || c = '\x0c'

/-- The six two-character operator alternatives `==|!=|<=|>=|&&|\|\|`. -/
def isTwoCharOp (c d : Char) : Bool :=
  (c = '=' && d = '=') || (c = '!' && d = '=') || (c = '<' && d = '=') ||
  (c = '>' && d = '=') || (c = '&' && d = '&') || (c = '|' && d = '|')

/-- Split a character list at the first occurrence of the quote `q`:
`splitQuote q l = some (a, b)` when `l = a ++ q :: b` and `q ∉ a`.
This is the non-greedy `.*?` search of the quoted-string alternatives. -/
def splitQuote (q : Char) : List Char → Option (List Char × List Char)
  | [] => none
  | c :: rest =>
    if c = q then some ([], rest)
    else (splitQuote q rest).map (fun p => (c :: p.1, p.2))

/-- One left-to-right `re.findall` scan of the lexer pattern
`[A-Za-z_][A-Za-z0-9_]*|\d+|".*?"|'.*?'|==|!=|<=|>=|&&|\|\||[^\s]`
(flag `re.S`), with explicit fuel for structural recursion; each step
consumes at least one character, so fuel `l.length` is always enough. -/
def tokGo : Nat → List Char → List (List Char)
  | 0, _ => []
  | _+1, [] => []
  | f+1, c :: rest =>
    if isIdentStart c then
      (c :: rest.takeWhile isIdentChar) :: tokGo f (rest.dropWhile isIdentChar)
    else if isAsciiDigit c then
      (c :: rest.takeWhile isAsciiDigit) :: tokGo f (rest.dropWhile isAsciiDigit)
    else if c = '"' then
      match splitQuote '"' rest with
      | some p => ('"' :: p.1 ++ ['"']) :: tokGo f p.2
      | none => [c] :: tokGo f rest
    else if c = '\'' then
      match splitQuote '\'' rest with
      | some p => ('\'' :: p.1 ++ ['\'']) :: tokGo f p.2
      | none => [c] :: tokGo f rest
    else
      match rest with
      | d :: rest2 =>
        if isTwoCharOp c d then [c, d] :: tokGo f rest2
        else if pyIsSpace c then tokGo f (d :: rest2)
        else [c] :: tokGo f (d :: rest2)
      | [] => if pyIsSpace c then [] else [[c]]

/-- `tokenize_code` of the source (lines 139-145): `re.findall` of the fixed
lexer pattern over the text. -/
def tokenize_code (text : String) : List String :=
  (tokGo text.data.length text.data).map (fun t => String.mk t)

/-- Drop up to (but not including) the next newline: the text removed by the
`//.*?$` alternative ends right before `'\n'` (multiline `$`). -/
def dropLine (l : List Char) : List Char :=
  l.dropWhile (fun c => c ≠ '\n')

/-- Find the first occurrence of `*/` and return the suffix after it; `none`
when there is no such occurrence.  This is the non-greedy `.*?\*/` search of
the block-comment alternative. -/
def afterClose : List Char → Option (List Char)
  | [] => none
  | c :: rest =>
    if c = '*' ∧ rest.head? = some '/' then some rest.tail
    else afterClose rest

/-- One left-to-right `re.sub` scan of `//.*?$|/\*.*?\*/` (flags `re.M|re.S`)
replacing matches by the empty string, with explicit fuel; each step consumes
at least one character, so fuel `l.length` is always enough.  At a position
the line-comment alternative fires on `//`, the block alternative fires on
`/*` that has a later `*/`, and otherwise the character is copied. -/
def stripGo : Nat → List Char → List Char
  | 0, l => l
  | _+1, [] => []
  | f+1, c :: rest =>
    if c = '/' then
      if rest.head? = some '/' then stripGo f (dropLine rest.tail)
      else if rest.head? = some '*' then
        match afterClose rest.tail with
        | some rest2 => stripGo f rest2
        | none => c :: stripGo f rest
      else c :: stripGo f rest
    else c :: stripGo f rest

/-- Comment stripping on character lists. -/
def stripC (l : List Char) : List Char :=
  stripGo l.length l

/-- `_strip_java_comments_for_check` of the source (lines 112-114):
`re.sub(r'//.*?$|/\*.*?\*/', '', src, flags=re.M|re.S)`. -/
def _strip_java_comments_for_check (src : String) : String :=
  String.mk (stripC src.data)

/-- A character list on which the comment-stripping scan makes no
replacement: it contains no `//` occurrence, and every `/*` occurrence has
no later `*/`.  Used to show the scan's output is a fixed point. -/
def clean : List Char → Bool
  | [] => true
  | c :: rest =>
    if c = '/' then
      if rest.head? = some '/' then false
      else if rest.head? = some '*' then
        (afterClose rest.tail).isNone && clean rest
      else clean rest
    else clean rest

/-- `str.splitlines` restricted to `'\n'` separators: `""` gives `[]`, a
trailing newline produces no trailing empty line. -/
def splitlinesC : List Char → List (List Char)
  | [] => []
  | c :: rest =>
    if c = '\n' then [] :: splitlinesC rest
    else
      match splitlinesC rest with
      | [] => [[c]]
      | line :: more => (c :: line) :: more

/-- Number of non-blank lines of the comment-stripped text: the check
`len([l for l in check_code.splitlines() if l.strip()])` of
`filter_invalid_methods`. -/
def effectiveLineCount (code : String) : Nat :=
  ((splitlinesC (stripC code.data)).filter (fun l => !l.all pyIsSpace)).length

/-- The per-method record assembled by `extract_methods_from_file`
(source lines 198-205). -/
structure MethodRecord where
  method_name : String
  start_line : Nat
  end_line : Nat
  signature : String
  original_code : String
  code_tokens : List String
deriving DecidableEq, Repr

/-- `filter_invalid_methods` of the source (lines 117-136): keep each record
unless its comment-stripped code has zero non-blank lines or a non-blank
line count below `min_lines` or above `max_lines`. -/
def filter_invalid_methods (methods : List MethodRecord)
    (min_lines : Nat := 3) (max_lines : Nat := 100) : List MethodRecord :=
  match methods with
  | [] => []
  | m :: ms =>
    let c := effectiveLineCount m.original_code
    if c = 0 then filter_invalid_methods ms min_lines max_lines
    else if c < min_lines || c > max_lines then
      filter_invalid_methods ms min_lines max_lines
    else m :: filter_invalid_methods ms min_lines max_lines

/-- Python `'{' in line`. -/
def hasOpenBrace (s : String) : Bool :=
  s.data.contains '\x7b'

/-- Net brace count of one line:
`line.count('{') - line.count('}')` as an integer. -/
def netBraces (s : String) : Int :=
  (s.data.count '\x7b' : Int) - (s.data.count '\x7d' : Int)

/-- The depth loop of `_brace_matched_end` (source lines 168-174): starting
from accumulated depth `d`, add each line's net brace count and return the
0-based offset of the first line after which the depth is exactly zero. -/
def scanDepth (d : Int) : List String → Option Nat
  | [] => none
  | s :: rest =>
    if d + netBraces s = 0 then some 0
    else (scanDepth (d + netBraces s) rest).map (fun off => off + 1)

/-- The opening-brace search loop of `_brace_matched_end` (source lines
161-167): 0-based offset of the first line containing `'{'`. -/
def findOpenOff : List String → Option Nat
  | [] => none
  | s :: rest =>
    if hasOpenBrace s then some 0 else (findOpenOff rest).map (fun off => off + 1)

/-- `_brace_matched_end` of the source (lines 149-174): from 1-based
`start_line`, find the first line containing `'{'`; from that line accumulate
net brace counts per line and return the 1-based number of the first line at
which the running depth is exactly zero, `none` when there is no opening
brace or the depth never returns to zero. -/
def _brace_matched_end (lines : List String) (start_line : Nat) : Option Nat :=
  let i := start_line - 1
  match findOpenOff (lines.drop i) with
  | none => none
  | some m => (scanDepth 0 (lines.drop (i + m))).map (fun off => i + m + off + 1)

/-- Running depth after processing the first `m + 1` lines of `L`. -/
def depthAt (L : List String) (m : Nat) : Int :=
  ((L.take (m + 1)).map netBraces).sum

/-- Cumulative net brace count over the 0-based inclusive line range
`[o, k]`: the running depth of the spec after processing line `k`, counted
from line `o`. -/
def depthAfter (lines : List String) (o k : Nat) : Int :=
  (((lines.drop o).take (k + 1 - o)).map netBraces).sum

/-- The declaration tuple the external AST pass supplies for one method
(name, optional 1-based start line, modifiers, return type, parameter
types). -/
structure Decl where
  name : String
  position : Option Nat
  modifiers : List String
  return_type : String
  parameter_types : List String
deriving DecidableEq, Repr

/-- The signature f-string of source line 194. -/
def mkSignature (d : Decl) : String :=
  String.intercalate (" ") d.modifiers ++ " " ++ d.return_type ++ " " ++
    d.name ++ "(" ++ String.intercalate (", ") d.parameter_types ++ ")"

/-- The loop body of `extract_methods_from_file` (source lines 186-206) over
the supplied declaration tuples: compute the end line by brace matching,
skip the method when the start line is absent or `0` (Python falsiness) or
no end line is found, otherwise slice `lines[start_line-1:end_line]` as
`original_code`, tokenize it, and assemble the record. -/
def extract_methods_from_decls (lines : List String) : List Decl → List MethodRecord
  | [] => []
  | d :: ds =>
    let start? := d.position
    let end? : Option Nat :=
      match start? with
      | some s => if s ≠ 0 then _brace_matched_end lines s else none
      | none => none
    match start?, end? with
    | some s, some e =>
      if s = 0 || e = 0 then extract_methods_from_decls lines ds
      else
        let code := String.intercalate ("\n") ((lines.drop (s - 1)).take (e - (s - 1)))
        { method_name := d.name
          start_line := s
          end_line := e
          signature := mkSignature d
          original_code := code
          code_tokens := tokenize_code code } :: extract_methods_from_decls lines ds
    | _, _ => extract_methods_from_decls lines ds

/-! ### Helper lemmas: boundary location -/

theorem getD_drop (L : List String) (i j : Nat) (d : String) :
    (L.drop i).getD j d = L.getD (i + j) d := by
  simp [List.getD_eq_getElem?_getD, List.getElem?_drop]

theorem depthAt_cons_zero (s : String) (rest : List String) :
    depthAt (s :: rest) 0 = netBraces s := by
  simp [depthAt]

theorem depthAt_cons_succ (s : String) (rest : List String) (k : Nat) :
    depthAt (s :: rest) (k + 1) = netBraces s + depthAt rest k := by
  simp [depthAt, List.take_succ_cons]

theorem findOpenOff_eq_some (L : List String) :
    ∀ m, findOpenOff L = some m ↔
      m < L.length ∧ hasOpenBrace (L.getD m ("")) = true ∧
        ∀ k, k < m → hasOpenBrace (L.getD k ("")) = false := by
  induction L with
  | nil => intro m; simp [findOpenOff]
  | cons s rest ih =>
    intro m
    by_cases hs : hasOpenBrace s = true
    · simp only [findOpenOff, hs, if_pos]
      constructor
      · rintro h
        cases h
        exact ⟨by simp, by simpa using hs, fun k hk => absurd hk (Nat.not_lt_zero k)⟩
      · rintro ⟨hm, hopen, hmin⟩
        cases m with
        | zero => rfl
        | succ m => exact absurd (hmin 0 (Nat.succ_pos m)) (by simpa using hs)
    · simp only [findOpenOff, hs, if_neg, Bool.false_eq_true, not_false_iff, if_false]
      constructor
      · intro h
        rw [Option.map_eq_some'] at h
        obtain ⟨m0, hm0, rfl⟩ := h
        obtain ⟨h1, h2, h3⟩ := (ih m0).mp hm0
        refine ⟨by simpa using h1, by simpa using h2, ?_⟩
        intro k hk
        cases k with
        | zero => simpa using hs
        | succ k => simpa using h3 k (by omega)
      · rintro ⟨hm, hopen, hmin⟩
        cases m with
        | zero => exact absurd (by simpa using hopen) hs
        | succ m =>
          rw [Option.map_eq_some']
          refine ⟨m, (ih m).mpr ⟨by simpa using hm, by simpa using hopen, ?_⟩, rfl⟩
          intro k hk
          simpa using hmin (k + 1) (by omega)

theorem findOpenOff_eq_none (L : List String) :
    findOpenOff L = none ↔
      ∀ k, k < L.length → hasOpenBrace (L.getD k ("")) = false := by
  induction L with
  | nil => simp [findOpenOff]
  | cons s rest ih =>
    by_cases hs : hasOpenBrace s = true
    · simp only [findOpenOff, hs, if_pos]
      constructor
      · intro h; cases h
      · intro h; exact absurd (h 0 (by simp)) (by simpa using hs)
    · simp only [findOpenOff, hs, if_neg, Bool.false_eq_true, not_false_iff, if_false,
        Option.map_eq_none']
      rw [ih]
      constructor
      · intro h k hk
        cases k with
        | zero => simpa using hs
        | succ k => simpa using h k (by simpa using hk)
      · intro h k hk
        simpa using h (k + 1) (by simpa using hk)

theorem scanDepth_eq_some (L : List String) :
    ∀ (d : Int) (m : Nat), scanDepth d L = some m ↔
      m < L.length ∧ d + depthAt L m = 0 ∧ ∀ k, k < m → d + depthAt L k ≠ 0 := by
  induction L with
  | nil => intro d m; simp [scanDepth]
  | cons s rest ih =>
    intro d m
    by_cases hd : d + netBraces s = 0
    · simp only [scanDepth, hd, if_pos]
      constructor
      · rintro h
        cases h
        refine ⟨by simp, by simpa [depthAt_cons_zero] using hd,
          fun k hk => absurd hk (Nat.not_lt_zero k)⟩
      · rintro ⟨hm, hz, hmin⟩
        cases m with
        | zero => rfl
        | succ m =>
          exact absurd (hmin 0 (Nat.succ_pos m)) (by simpa [depthAt_cons_zero] using hd)
    · simp only [scanDepth, hd, if_neg, not_false_iff, if_false]
      constructor
      · intro h
        rw [Option.map_eq_some'] at h
        obtain ⟨m0, hm0, rfl⟩ := h
        obtain ⟨h1, h2, h3⟩ := (ih (d + netBraces s) m0).mp hm0
        refine ⟨by simpa using h1, by simpa [depthAt_cons_succ, add_assoc] using h2, ?_⟩
        intro k hk
        cases k with
        | zero => simpa [depthAt_cons_zero] using hd
        | succ k =>
          have := h3 k (by omega)
          simpa [depthAt_cons_succ, add_assoc] using this
      · rintro ⟨hm, hz, hmin⟩
        cases m with
        | zero => exact absurd (by simpa [depthAt_cons_zero] using hz) hd
        | succ m =>
          rw [Option.map_eq_some']
          refine ⟨m, (ih (d + netBraces s) m).mpr
            ⟨by simpa using hm, by simpa [depthAt_cons_succ, add_assoc] using hz, ?_⟩, rfl⟩
          intro k hk
          have := hmin (k + 1) (by omega)
          simpa [depthAt_cons_succ, add_assoc] using this

theorem scanDepth_eq_none (L : List String) :
    ∀ (d : Int), scanDepth d L = none ↔
      ∀ k, k < L.length → d + depthAt L k ≠ 0 := by
  induction L with
  | nil => intro d; simp [scanDepth]
  | cons s rest ih =>
    intro d
    by_cases hd : d + netBraces s = 0
    · simp only [scanDepth, hd, if_pos]
      constructor
      · intro h; cases h
      · intro h
        exact absurd (by simpa [depthAt_cons_zero] using hd) (h 0 (by simp))
    · simp only [scanDepth, hd, if_neg, not_false_iff, if_false, Option.map_eq_none']
      rw [ih]
      constructor
      · intro h k hk
        cases k with
        | zero => simpa [depthAt_cons_zero] using hd
        | succ k =>
          have := h k (by simpa using hk)
          simpa [depthAt_cons_succ, add_assoc] using this
      · intro h k hk
        have := h (k + 1) (by simpa using hk)
        simpa [depthAt_cons_succ, add_assoc] using this

theorem depthAfter_eq_depthAt (lines : List String) (o k : Nat) (h : o ≤ k) :
    depthAfter lines o k = depthAt (lines.drop o) (k - o) := by
  unfold depthAfter depthAt
  rw [show k + 1 - o = k - o + 1 by omega]

theorem findOpenOff_drop_eq (lines : List String) (i o : Nat)
    (hio : i ≤ o) (holt : o < lines.length)
    (hopen : hasOpenBrace (lines.getD o ("")) = true)
    (hfirst : ∀ k, i ≤ k → k < o → hasOpenBrace (lines.getD k ("")) = false) :
    findOpenOff (lines.drop i) = some (o - i) := by
  rw [findOpenOff_eq_some]
  refine ⟨by simp; omega, ?_, ?_⟩
  · rw [getD_drop, show i + (o - i) = o by omega]; exact hopen
  · intro k hk
    rw [getD_drop]
    exact hfirst (i + k) (by omega) (by omega)

/-- Shared core: when line `o` (0-based) is the first line at or after
`s - 1` containing `'{'` and line `e` (0-based) is the first line at which
the running depth from `o` is zero, the function returns `some (e + 1)`. -/
theorem brace_end_aux (lines : List String) (s o e : Nat)
    (hs : 1 ≤ s) (hso : s - 1 ≤ o) (holt : o < lines.length)
    (hopen : hasOpenBrace (lines.getD o ("")) = true)
    (hfirst : ∀ k, s - 1 ≤ k → k < o → hasOpenBrace (lines.getD k ("")) = false)
    (hoe : o ≤ e) (helt : e < lines.length)
    (hzero : depthAfter lines o e = 0)
    (hbefore : ∀ k, o ≤ k → k < e → depthAfter lines o k ≠ 0) :
    _brace_matched_end lines s = some (e + 1) := by
  have hfo := findOpenOff_drop_eq lines (s - 1) o hso holt hopen hfirst
  have hscan : scanDepth 0 (lines.drop (s - 1 + (o - (s - 1)))) = some (e - o) := by
    rw [show s - 1 + (o - (s - 1)) = o by omega, scanDepth_eq_some]
    refine ⟨by simp; omega, ?_, ?_⟩
    · rw [← depthAfter_eq_depthAt lines o e hoe] at *
      simpa using hzero
    · intro k hk
      have h1 := hbefore (o + k) (by omega) (by omega)
      rw [depthAfter_eq_depthAt lines o (o + k) (by omega)] at h1
      simpa using h1
  simp only [_brace_matched_end, hfo, hscan, Option.map_some']
  congr 1
  omega

theorem depthAt_drop_zero (lines : List String) (o : Nat) (h : o < lines.length) :
    depthAt (lines.drop o) 0 = netBraces (lines.getD o ("")) := by
  rw [List.drop_eq_getElem_cons h, depthAt_cons_zero, List.getD_eq_getElem?_getD,
    List.getElem?_eq_getElem h]
  rfl

/-- Shared core: bounds of a successful boundary search. -/
theorem brace_some_bounds (lines : List String) (s e : Nat)
    (h : _brace_matched_end lines s = some e) : s ≤ e ∧ e ≤ lines.length := by
  cases hfo : findOpenOff (lines.drop (s - 1)) with
  | none => simp [_brace_matched_end, hfo] at h
  | some m =>
    simp only [_brace_matched_end, hfo, Option.map_eq_some'] at h
    obtain ⟨off, hoff, rfl⟩ := h
    have h1 := ((findOpenOff_eq_some _ m).mp hfo).1
    have h2 := ((scanDepth_eq_some _ 0 off).mp hoff).1
    simp only [List.length_drop] at h1 h2
    omega

/-- Shared core: the record-assembly loop only keeps methods whose start
line is a truthy (nonzero) position and whose end line the boundary search
found. -/
theorem extract_mem_cases (lines : List String) :
    ∀ (decls : List Decl) (r : MethodRecord),
      r ∈ extract_methods_from_decls lines decls →
      ∃ d ∈ decls, d.position = some r.start_line ∧ r.start_line ≠ 0 ∧
        _brace_matched_end lines r.start_line = some r.end_line ∧
        r.method_name = d.name ∧ r.signature = mkSignature d ∧
        r.original_code = String.intercalate ("\n")
          ((lines.drop (r.start_line - 1)).take (r.end_line - (r.start_line - 1))) ∧
        r.code_tokens = tokenize_code r.original_code := by
  intro decls
  induction decls with
  | nil => intro r hr; simp [extract_methods_from_decls] at hr
  | cons d ds ih =>
    intro r hr
    rw [extract_methods_from_decls] at hr
    cases hpos : d.position with
    | none =>
      simp only [hpos] at hr
      obtain ⟨d0, hd0, hrest⟩ := ih r hr
      exact ⟨d0, List.mem_cons_of_mem d hd0, hrest⟩
    | some sl =>
      simp only [hpos] at hr
      by_cases hsl : sl = 0
      · simp only [hsl, ne_eq, not_true_eq_false, if_false] at hr
        obtain ⟨d0, hd0, hrest⟩ := ih r hr
        exact ⟨d0, List.mem_cons_of_mem d hd0, hrest⟩
      · simp only [ne_eq, hsl, not_false_iff, if_true] at hr
        cases hend : _brace_matched_end lines sl with
        | none =>
          simp only [hend] at hr
          obtain ⟨d0, hd0, hrest⟩ := ih r hr
          exact ⟨d0, List.mem_cons_of_mem d hd0, hrest⟩
        | some e =>
          simp only [hend] at hr
          by_cases hcond : (decide (sl = 0) || decide (e = 0)) = true
          · rw [if_pos hcond] at hr
            obtain ⟨d0, hd0, hrest⟩ := ih r hr
            exact ⟨d0, List.mem_cons_of_mem d hd0, hrest⟩
          · rw [if_neg hcond] at hr
            rcases List.mem_cons.mp hr with hr | hr
            · refine ⟨d, List.mem_cons_self d ds, ?_⟩
              subst hr
              exact ⟨hpos, hsl, hend, rfl, rfl, rfl, rfl⟩
            · obtain ⟨d0, hd0, hrest⟩ := ih r hr
              exact ⟨d0, List.mem_cons_of_mem d hd0, hrest⟩

/-- C1: for a well-formed nested-brace block starting at 1-based line `s`
whose first opening brace lies on the line with 0-based index `o ≥ s - 1`
and whose running net-brace depth, accumulated per line from line `o`,
first returns to zero at the line with 0-based index `e`, the function
`_brace_matched_end` returns the 1-based end line `e + 1`. -/
theorem brace_matched_end_locates (lines : List String) (s o e : Nat)
    (hs : 1 ≤ s) (hso : s - 1 ≤ o) (holt : o < lines.length)
    (hopen : hasOpenBrace (lines.getD o ("")) = true)
    (hfirst : ∀ k, s - 1 ≤ k → k < o → hasOpenBrace (lines.getD k ("")) = false)
    (hoe : o ≤ e) (helt : e < lines.length)
    (hzero : depthAfter lines o e = 0)
    (hbefore : ∀ k, o ≤ k → k < e → depthAfter lines o k ≠ 0) :
    _brace_matched_end lines s = some (e + 1) :=
  brace_end_aux lines s o e hs hso holt hopen hfirst hoe helt hzero hbefore

/-- Witness for C1: the end-to-end example of the spec, a five-line method
starting at line 1 whose depth returns to zero on line 5. -/
theorem brace_matched_end_locates_witness :
    _brace_matched_end
      ["void f() \x7b", "  int x = 1;", "  // note", "  return;", "\x7d"] 1 = some 5 :=
  brace_matched_end_locates
    ["void f() \x7b", "  int x = 1;", "  // note", "  return;", "\x7d"]
    1 0 4 (by decide) (by decide) (by decide) (by decide)
    (fun k _ hk => absurd hk (Nat.not_lt_zero k))
    (by decide) (by decide) (by decide)
    (fun k hk0 hk4 => by interval_cases k <;> decide)

/-- C10: the braces of the first `'{'`-containing line are themselves
counted: when the first line at or after `start_line` that contains `'{'`
(0-based index `o`) has equally many `'{'` and `'}'` characters, the
function returns that very line's 1-based number `o + 1`. -/
theorem brace_matched_end_first_line (lines : List String) (s o : Nat)
    (hs : 1 ≤ s) (hso : s - 1 ≤ o) (holt : o < lines.length)
    (hopen : hasOpenBrace (lines.getD o ("")) = true)
    (hfirst : ∀ k, s - 1 ≤ k → k < o → hasOpenBrace (lines.getD k ("")) = false)
    (hbal : (lines.getD o ("")).data.count '\x7b' =
            (lines.getD o ("")).data.count '\x7d') :
    _brace_matched_end lines s = some (o + 1) := by
  apply brace_end_aux lines s o o hs hso holt hopen hfirst (le_refl o) holt
  · rw [depthAfter_eq_depthAt lines o o (le_refl o), Nat.sub_self,
      depthAt_drop_zero lines o holt]
    unfold netBraces
    omega
  · intro k hk1 hk2
    omega

/-- Witness for C10: a one-line method body, whose single line holds both
the opening and the matching closing brace. -/
theorem brace_matched_end_first_line_witness :
    _brace_matched_end ["void f() \x7b return; \x7d"] 1 = some 1 :=
  brace_matched_end_first_line ["void f() \x7b return; \x7d"] 1 0
    (by decide) (by decide) (by decide) (by decide)
    (fun k _ hk => absurd hk (Nat.not_lt_zero k))
    (by decide)

/-- C4: for any list of lines and any `start_line ≥ 1`, the function returns
an absent result exactly when no line at or after `start_line` contains
`'{'` (which covers `start_line` exceeding the line count), or the running
depth counted from the first `'{'`-containing line never returns to zero
before the file ends.  The embedding is a total function, so no exception
can be raised. -/
theorem brace_matched_end_none_iff (lines : List String) (s : Nat) (hs : 1 ≤ s) :
    _brace_matched_end lines s = none ↔
      ((∀ k, s - 1 ≤ k → k < lines.length → hasOpenBrace (lines.getD k ("")) = false) ∨
       (∃ o, s - 1 ≤ o ∧ o < lines.length ∧ hasOpenBrace (lines.getD o ("")) = true ∧
         (∀ k, s - 1 ≤ k → k < o → hasOpenBrace (lines.getD k ("")) = false) ∧
         (∀ k, o ≤ k → k < lines.length → depthAfter lines o k ≠ 0))) := by
  cases hfo : findOpenOff (lines.drop (s - 1)) with
  | none =>
    have hall : ∀ k, s - 1 ≤ k → k < lines.length → hasOpenBrace (lines.getD k ("")) = false := by
      intro k hk1 hk2
      have := (findOpenOff_eq_none _).mp hfo (k - (s - 1)) (by simp; omega)
      rwa [getD_drop, show s - 1 + (k - (s - 1)) = k by omega] at this
    constructor
    · intro _; exact Or.inl hall
    · intro _; simp [_brace_matched_end, hfo]
  | some m =>
    obtain ⟨hm, hopen, hmin⟩ := (findOpenOff_eq_some _ m).mp hfo
    rw [List.length_drop] at hm
    have hopen' : hasOpenBrace (lines.getD (s - 1 + m) ("")) = true := by
      rwa [getD_drop] at hopen
    have hmin' : ∀ k, s - 1 ≤ k → k < s - 1 + m → hasOpenBrace (lines.getD k ("")) = false := by
      intro k hk1 hk2
      have := hmin (k - (s - 1)) (by omega)
      rwa [getD_drop, show s - 1 + (k - (s - 1)) = k by omega] at this
    have hred : _brace_matched_end lines s =
        (scanDepth 0 (lines.drop (s - 1 + m))).map (fun off => s - 1 + m + off + 1) := by
      simp [_brace_matched_end, hfo]
    rw [hred, Option.map_eq_none', scanDepth_eq_none]
    constructor
    · intro h
      refine Or.inr ⟨s - 1 + m, by omega, by omega, hopen', hmin', ?_⟩
      intro k hk1 hk2
      have := h (k - (s - 1 + m)) (by simp; omega)
      rw [depthAfter_eq_depthAt lines (s - 1 + m) k hk1]
      simpa using this
    · rintro (hall | ⟨o, ho1, ho2, ho3, ho4, ho5⟩)
      · have h1 := hall (s - 1 + m) (by omega) (by omega)
        rw [h1] at hopen'
        exact (Bool.false_ne_true hopen').elim
      · have ho : o = s - 1 + m := by
          by_contra hne
          rcases Nat.lt_or_ge o (s - 1 + m) with hlt | hge
          · have h1 := hmin' o ho1 hlt
            rw [h1] at ho3
            exact (Bool.false_ne_true ho3).elim
          · have hgt : s - 1 + m < o := by omega
            have h1 := ho4 (s - 1 + m) (by omega) hgt
            rw [h1] at hopen'
            exact (Bool.false_ne_true hopen').elim
        subst ho
        intro k hk
        rw [List.length_drop] at hk
        have := ho5 (s - 1 + m + k) (by omega) (by omega)
        rw [depthAfter_eq_depthAt lines (s - 1 + m) (s - 1 + m + k) (by omega)] at this
        simpa using this

/-- Witness for C4: a single never-closed opening brace yields an absent
result, characterized by the right disjunct of the iff. -/
theorem brace_matched_end_none_iff_witness :
    _brace_matched_end ["\x7b"] 1 = none :=
  (brace_matched_end_none_iff ["\x7b"] 1 (by decide)).mpr
    (Or.inr ⟨0, by decide, by decide, by decide,
      fun k _ hk => absurd hk (Nat.not_lt_zero k),
      fun k hk0 hk1 => by
        have hk : k = 0 := by simp at hk1; omega
        subst hk; decide⟩)

/-- C7: whenever `_brace_matched_end lines start_line` returns a value `e`
with `start_line ≥ 1`, then `start_line ≤ e ≤ lines.length`; hence every
record the extraction loop produces satisfies
`end_line ≥ start_line ≥ 1`. -/
theorem brace_matched_end_bounds :
    (∀ (lines : List String) (s e : Nat), 1 ≤ s →
      _brace_matched_end lines s = some e → s ≤ e ∧ e ≤ lines.length) ∧
    (∀ (lines : List String) (decls : List Decl) (r : MethodRecord),
      r ∈ extract_methods_from_decls lines decls →
      1 ≤ r.start_line ∧ r.start_line ≤ r.end_line) := by
  constructor
  · intro lines s e _ h
    exact brace_some_bounds lines s e h
  · intro lines decls r hr
    obtain ⟨d, _, _, hne, hend, _⟩ := extract_mem_cases lines decls r hr
    have := brace_some_bounds lines r.start_line r.end_line hend
    omega

/-- Witness for C7: a two-line method gives `some 2` with `1 ≤ 2 ≤ 2`, and
the record extracted from it has `start_line = 1 ≤ end_line = 2`. -/
theorem brace_matched_end_bounds_witness :
    ((1 : Nat) ≤ 2 ∧ 2 ≤ (["\x7b", "\x7d"] : List String).length) ∧
    (1 ≤ (⟨"f", 1, 2, " void f()", "void f() \x7b\n\x7d",
            ["void", "f", "(", ")", "\x7b", "\x7d"]⟩ : MethodRecord).start_line ∧
     (⟨"f", 1, 2, " void f()", "void f() \x7b\n\x7d",
            ["void", "f", "(", ")", "\x7b", "\x7d"]⟩ : MethodRecord).start_line ≤
     (⟨"f", 1, 2, " void f()", "void f() \x7b\n\x7d",
            ["void", "f", "(", ")", "\x7b", "\x7d"]⟩ : MethodRecord).end_line) :=
  ⟨brace_matched_end_bounds.1 ["\x7b", "\x7d"] 1 2 (by decide) (by decide),
   brace_matched_end_bounds.2 ["void f() \x7b", "\x7d"]
     [⟨"f", some 1, [], "void", []⟩] _ (by decide)⟩

/-- C6: every record produced by the extraction loop has `original_code`
equal to the newline-join of the inclusive slice
`lines[start_line-1 .. end_line-1]` and `code_tokens` equal to
`tokenize_code original_code`. -/
theorem extract_record_code_faithful
    (lines : List String) (decls : List Decl) (r : MethodRecord)
    (hr : r ∈ extract_methods_from_decls lines decls) :
    r.original_code = String.intercalate ("\n")
      ((lines.drop (r.start_line - 1)).take (r.end_line - (r.start_line - 1))) ∧
    r.code_tokens = tokenize_code r.original_code := by
  obtain ⟨d, _, _, _, _, _, _, hcode, htok⟩ := extract_mem_cases lines decls r hr
  exact ⟨hcode, htok⟩

/-- Witness for C6: the record extracted from a concrete two-line file. -/
theorem extract_record_code_faithful_witness :
    (⟨"f", 1, 2, " void f()", "void f() \x7b\n\x7d",
       ["void", "f", "(", ")", "\x7b", "\x7d"]⟩ : MethodRecord).original_code =
      String.intercalate ("\n")
        (((["void f() \x7b", "\x7d"] : List String).drop (1 - 1)).take (2 - (1 - 1))) ∧
    (⟨"f", 1, 2, " void f()", "void f() \x7b\n\x7d",
       ["void", "f", "(", ")", "\x7b", "\x7d"]⟩ : MethodRecord).code_tokens =
      tokenize_code (⟨"f", 1, 2, " void f()", "void f() \x7b\n\x7d",
       ["void", "f", "(", ")", "\x7b", "\x7d"]⟩ : MethodRecord).original_code :=
  extract_record_code_faithful ["void f() \x7b", "\x7d"]
    [⟨"f", some 1, [], "void", []⟩] _ (by decide)

/-! ### Helper lemmas: the lexer -/

theorem pyIsSpace_elim (c : Char) (h : pyIsSpace c = true) :
    c = ' ' ∨ c = '\t' ∨ c = '\n' ∨ c = '\r' ∨ c = '\x0b' ∨ c = '\x0c' := by
  simpa [pyIsSpace, or_assoc] using h

theorem identStart_not_space (c : Char) (h : isIdentStart c = true) :
    pyIsSpace c = false := by
  cases hsp : pyIsSpace c
  · rfl
  · rcases pyIsSpace_elim c hsp with rfl | rfl | rfl | rfl | rfl | rfl <;>
      exact absurd h (by decide)

theorem identChar_not_space (c : Char) (h : isIdentChar c = true) :
    pyIsSpace c = false := by
  cases hsp : pyIsSpace c
  · rfl
  · rcases pyIsSpace_elim c hsp with rfl | rfl | rfl | rfl | rfl | rfl <;>
      exact absurd h (by decide)

theorem digit_not_space (c : Char) (h : isAsciiDigit c = true) :
    pyIsSpace c = false := by
  cases hsp : pyIsSpace c
  · rfl
  · rcases pyIsSpace_elim c hsp with rfl | rfl | rfl | rfl | rfl | rfl <;>
      exact absurd h (by decide)

theorem twoCharOp_not_space (c d : Char) (h : isTwoCharOp c d = true) :
    pyIsSpace c = false ∧ pyIsSpace d = false := by
  have h2 : (c = '=' ∧ d = '=') ∨ (c = '!' ∧ d = '=') ∨ (c = '<' ∧ d = '=') ∨
      (c = '>' ∧ d = '=') ∨ (c = '&' ∧ d = '&') ∨ (c = '|' ∧ d = '|') := by
    simpa [isTwoCharOp, or_assoc] using h
  rcases h2 with ⟨rfl, rfl⟩ | ⟨rfl, rfl⟩ | ⟨rfl, rfl⟩ | ⟨rfl, rfl⟩ | ⟨rfl, rfl⟩ | ⟨rfl, rfl⟩ <;>
    exact ⟨rfl, rfl⟩

/-- Every token the scan emits is nonempty, and the only tokens that can
contain a whitespace character are the quoted-string tokens, recognizable by
their leading quote. -/
theorem tokGo_mem : ∀ (f : Nat) (l : List Char) (t : List Char), t ∈ tokGo f l →
    t ≠ [] ∧ ∀ c ∈ t, pyIsSpace c = true →
      t.head? = some '"' ∨ t.head? = some '\'' := by
  intro f
  induction f with
  | zero => intro l t ht; simp [tokGo] at ht
  | succ f ih =>
    intro l t ht
    match l with
    | [] => simp [tokGo] at ht
    | c :: rest =>
      simp only [tokGo] at ht
      by_cases h1 : isIdentStart c = true
      · rw [if_pos h1] at ht
        rcases List.mem_cons.mp ht with rfl | ht
        · refine ⟨by simp, ?_⟩
          intro x hx hsp
          exfalso
          rcases List.mem_cons.mp hx with rfl | hx
          · rw [identStart_not_space x h1] at hsp
            exact Bool.false_ne_true hsp
          · rw [identChar_not_space x (List.mem_takeWhile_imp hx)] at hsp
            exact Bool.false_ne_true hsp
        · exact ih _ t ht
      · rw [if_neg h1] at ht
        by_cases h2 : isAsciiDigit c = true
        · rw [if_pos h2] at ht
          rcases List.mem_cons.mp ht with rfl | ht
          · refine ⟨by simp, ?_⟩
            intro x hx hsp
            exfalso
            rcases List.mem_cons.mp hx with rfl | hx
            · rw [digit_not_space x h2] at hsp
              exact Bool.false_ne_true hsp
            · rw [digit_not_space x (List.mem_takeWhile_imp hx)] at hsp
              exact Bool.false_ne_true hsp
          · exact ih _ t ht
        · rw [if_neg h2] at ht
          by_cases h3 : c = '"'
          · rw [if_pos h3] at ht
            cases hsq : splitQuote '"' rest with
            | some p =>
              rw [hsq] at ht
              rcases List.mem_cons.mp ht with rfl | ht
              · exact ⟨by simp, fun x _ _ => Or.inl rfl⟩
              · exact ih _ t ht
            | none =>
              rw [hsq] at ht
              rcases List.mem_cons.mp ht with rfl | ht
              · subst h3
                exact ⟨by simp, fun x _ _ => Or.inl rfl⟩
              · exact ih _ t ht
          · rw [if_neg h3] at ht
            by_cases h4 : c = '\''
            · rw [if_pos h4] at ht
              cases hsq : splitQuote '\'' rest with
              | some p =>
                rw [hsq] at ht
                rcases List.mem_cons.mp ht with rfl | ht
                · exact ⟨by simp, fun x _ _ => Or.inr rfl⟩
                · exact ih _ t ht
              | none =>
                rw [hsq] at ht
                rcases List.mem_cons.mp ht with rfl | ht
                · subst h4
                  exact ⟨by simp, fun x _ _ => Or.inr rfl⟩
                · exact ih _ t ht
            · rw [if_neg h4] at ht
              cases rest with
              | nil =>
                simp only [] at ht
                by_cases hsp : pyIsSpace c = true
                · rw [if_pos hsp] at ht
                  simp at ht
                · rw [if_neg hsp] at ht
                  rcases List.mem_cons.mp ht with rfl | ht
                  · refine ⟨by simp, ?_⟩
                    intro x hx hx2
                    rcases List.mem_cons.mp hx with rfl | hx
                    · exact absurd hx2 hsp
                    · simp at hx
                  · simp at ht
              | cons d rest2 =>
                simp only [] at ht
                by_cases hop : isTwoCharOp c d = true
                · rw [if_pos hop] at ht
                  rcases List.mem_cons.mp ht with rfl | ht
                  · refine ⟨by simp, ?_⟩
                    intro x hx hsp
                    exfalso
                    rcases List.mem_cons.mp hx with rfl | hx
                    · rw [(twoCharOp_not_space x d hop).1] at hsp
                      exact Bool.false_ne_true hsp
                    · rcases List.mem_cons.mp hx with rfl | hx
                      · rw [(twoCharOp_not_space c x hop).2] at hsp
                        exact Bool.false_ne_true hsp
                      · simp at hx
                  · exact ih _ t ht
                · rw [if_neg hop] at ht
                  by_cases hsp : pyIsSpace c = true
                  · rw [if_pos hsp] at ht
                    exact ih _ t ht
                  · rw [if_neg hsp] at ht
                    rcases List.mem_cons.mp ht with rfl | ht
                    · refine ⟨by simp, ?_⟩
                      intro x hx hx2
                      rcases List.mem_cons.mp hx with rfl | hx
                      · exact absurd hx2 hsp
                      · simp at hx
                    · exact ih _ t ht

/-- C8: the lexer is a total function of its input (the embedding returns a
token list for every string); the empty string yields the empty sequence;
every emitted token is nonempty; and a whitespace character occurs inside a
token only when that token is a quoted-string token (led by `"` or `'`). -/
theorem tokenize_code_total_ws_free :
    tokenize_code ("") = [] ∧
    (∀ (s t : String), t ∈ tokenize_code s → t.data ≠ []) ∧
    (∀ (s t : String) (c : Char), t ∈ tokenize_code s → c ∈ t.data →
      pyIsSpace c = true → t.data.head? = some '"' ∨ t.data.head? = some '\'') := by
  refine ⟨rfl, ?_, ?_⟩
  · intro s t ht
    simp only [tokenize_code, List.mem_map] at ht
    obtain ⟨tc, htc, rfl⟩ := ht
    exact (tokGo_mem _ _ _ htc).1
  · intro s t c ht hc hsp
    simp only [tokenize_code, List.mem_map] at ht
    obtain ⟨tc, htc, rfl⟩ := ht
    exact (tokGo_mem _ _ _ htc).2 c hc hsp

/-- Witness for C8: a concrete identifier token is nonempty, and the
whitespace inside a double-quoted string token leaves the token led by a
quote. -/
theorem tokenize_code_total_ws_free_witness :
    (("x" : String).data) ≠ [] ∧
    ((("\"a b\"" : String).data).head? = some '"' ∨
     (("\"a b\"" : String).data).head? = some '\'') :=
  ⟨tokenize_code_total_ws_free.2.1 ("x y") ("x") (by decide),
   tokenize_code_total_ws_free.2.2 ("\"a b\"") ("\"a b\"") ' ' (by decide)
     (by decide) (by decide)⟩

/-- The scan yields no token exactly when every remaining character is
whitespace (given enough fuel). -/
theorem tokGo_eq_nil_iff : ∀ (f : Nat) (l : List Char), l.length ≤ f →
    (tokGo f l = [] ↔ ∀ c ∈ l, pyIsSpace c = true) := by
  intro f
  induction f with
  | zero =>
    intro l hl
    have hnil : l = [] := List.length_eq_zero.mp (Nat.le_zero.mp hl)
    subst hnil
    simp [tokGo]
  | succ f ih =>
    intro l hl
    match l with
    | [] => simp [tokGo]
    | c :: rest =>
      have hrest : rest.length ≤ f := by
        simp only [List.length_cons] at hl
        omega
      simp only [tokGo]
      by_cases h1 : isIdentStart c = true
      · rw [if_pos h1]
        constructor
        · intro h; simp at h
        · intro hall
          have := hall c (List.mem_cons_self c rest)
          rw [identStart_not_space c h1] at this
          exact (Bool.false_ne_true this).elim
      · rw [if_neg h1]
        by_cases h2 : isAsciiDigit c = true
        · rw [if_pos h2]
          constructor
          · intro h; simp at h
          · intro hall
            have := hall c (List.mem_cons_self c rest)
            rw [digit_not_space c h2] at this
            exact (Bool.false_ne_true this).elim
        · rw [if_neg h2]
          by_cases h3 : c = '"'
          · rw [if_pos h3]
            have hcsp : pyIsSpace c = false := by subst h3; rfl
            cases hsq : splitQuote '"' rest with
            | some p =>
              constructor
              · intro h; simp at h
              · intro hall
                have := hall c (List.mem_cons_self c rest)
                rw [hcsp] at this
                exact (Bool.false_ne_true this).elim
            | none =>
              constructor
              · intro h; simp at h
              · intro hall
                have := hall c (List.mem_cons_self c rest)
                rw [hcsp] at this
                exact (Bool.false_ne_true this).elim
          · rw [if_neg h3]
            by_cases h4 : c = '\''
            · rw [if_pos h4]
              have hcsp : pyIsSpace c = false := by subst h4; rfl
              cases hsq : splitQuote '\'' rest with
              | some p =>
                constructor
                · intro h; simp at h
                · intro hall
                  have := hall c (List.mem_cons_self c rest)
                  rw [hcsp] at this
                  exact (Bool.false_ne_true this).elim
              | none =>
                constructor
                · intro h; simp at h
                · intro hall
                  have := hall c (List.mem_cons_self c rest)
                  rw [hcsp] at this
                  exact (Bool.false_ne_true this).elim
            · rw [if_neg h4]
              cases rest with
              | nil =>
                simp only []
                by_cases hsp : pyIsSpace c = true
                · rw [if_pos hsp]
                  constructor
                  · intro _ x hx
                    rcases List.mem_cons.mp hx with rfl | hx
                    · exact hsp
                    · simp at hx
                  · intro _; rfl
                · rw [if_neg hsp]
                  constructor
                  · intro h; simp at h
                  · intro hall
                    exact absurd (hall c (List.mem_cons_self c [])) hsp
              | cons d rest2 =>
                simp only []
                by_cases hop : isTwoCharOp c d = true
                · rw [if_pos hop]
                  constructor
                  · intro h; simp at h
                  · intro hall
                    have := hall c (List.mem_cons_self c (d :: rest2))
                    rw [(twoCharOp_not_space c d hop).1] at this
                    exact (Bool.false_ne_true this).elim
                · rw [if_neg hop]
                  by_cases hsp : pyIsSpace c = true
                  · rw [if_pos hsp]
                    rw [ih (d :: rest2) hrest]
                    constructor
                    · intro h x hx
                      rcases List.mem_cons.mp hx with rfl | hx
                      · exact hsp
                      · exact h x hx
                    · intro h x hx
                      exact h x (List.mem_cons_of_mem c hx)
                  · rw [if_neg hsp]
                    constructor
                    · intro h; simp at h
                    · intro hall
                      exact absurd (hall c (List.mem_cons_self c (d :: rest2))) hsp

/-- C9: the lexer emits no token exactly when the input has no
non-whitespace character; every whitespace-only input yields the empty
sequence, and every input containing a non-whitespace character yields at
least one token. -/
theorem tokenize_code_nil_iff (s : String) :
    tokenize_code s = [] ↔ ∀ c ∈ s.data, pyIsSpace c = true := by
  unfold tokenize_code
  rw [List.map_eq_nil_iff]
  exact tokGo_eq_nil_iff s.data.length s.data (le_refl _)

/-- Witness for C9: a whitespace-only input tokenizes to the empty sequence
and an input with a letter does not. -/
theorem tokenize_code_nil_iff_witness :
    tokenize_code (" \t") = [] ∧ tokenize_code ("a") ≠ [] :=
  ⟨(tokenize_code_nil_iff (" \t")).mpr (by decide),
   fun h => by
    have h2 := (tokenize_code_nil_iff ("a")).mp h 'a' (by decide)
    exact absurd h2 (by decide)⟩

/-- C3: tokenizing the category string of the spec yields exactly the
expected ordered token sequence, one token per grammar alternative. -/
theorem tokenize_code_category_example :
    tokenize_code ("foo123 42 \"a b\" 'c' == != <= >= && || @") =
      ["foo123", "42", "\"a b\"", "'c'", "==", "!=", "<=", ">=", "&&", "||", "@"] := by
  decide

/-- C2: the filter returns exactly the order-preserving subsequence of
records whose effective line count `c` (non-blank lines of the
comment-stripped code) satisfies `c > 0`, `min_lines ≤ c` and
`c ≤ max_lines`; in particular a record with exactly `min_lines` such lines
is kept, one with `min_lines - 1` is dropped, one with exactly `max_lines`
is kept, and one with `max_lines + 1` is dropped. -/
theorem filter_invalid_methods_spec :
    (∀ (ms : List MethodRecord) (lo hi : Nat),
      filter_invalid_methods ms lo hi = ms.filter (fun m =>
        decide (0 < effectiveLineCount m.original_code ∧
                lo ≤ effectiveLineCount m.original_code ∧
                effectiveLineCount m.original_code ≤ hi))) ∧
    (∀ (m : MethodRecord) (lo hi : Nat), 0 < lo → lo ≤ hi →
      (effectiveLineCount m.original_code = lo →
        filter_invalid_methods [m] lo hi = [m]) ∧
      (effectiveLineCount m.original_code = lo - 1 →
        filter_invalid_methods [m] lo hi = []) ∧
      (effectiveLineCount m.original_code = hi →
        filter_invalid_methods [m] lo hi = [m]) ∧
      (effectiveLineCount m.original_code = hi + 1 →
        filter_invalid_methods [m] lo hi = [])) := by
  have hmain : ∀ (ms : List MethodRecord) (lo hi : Nat),
      filter_invalid_methods ms lo hi = ms.filter (fun m =>
        decide (0 < effectiveLineCount m.original_code ∧
                lo ≤ effectiveLineCount m.original_code ∧
                effectiveLineCount m.original_code ≤ hi)) := by
    intro ms lo hi
    induction ms with
    | nil => simp [filter_invalid_methods]
    | cons m ms ih =>
      simp only [filter_invalid_methods, List.filter_cons]
      by_cases h0 : effectiveLineCount m.original_code = 0
      · rw [if_pos h0]
        have hp : decide (0 < effectiveLineCount m.original_code ∧
            lo ≤ effectiveLineCount m.original_code ∧
            effectiveLineCount m.original_code ≤ hi) = false := by
          simp only [decide_eq_false_iff_not]
          rintro ⟨h1, _, _⟩
          omega
        rw [hp]
        simpa using ih
      · rw [if_neg h0]
        by_cases hcond : (decide (effectiveLineCount m.original_code < lo) ||
            decide (effectiveLineCount m.original_code > hi)) = true
        · rw [if_pos hcond]
          simp only [Bool.or_eq_true, decide_eq_true_eq] at hcond
          have hp : decide (0 < effectiveLineCount m.original_code ∧
              lo ≤ effectiveLineCount m.original_code ∧
              effectiveLineCount m.original_code ≤ hi) = false := by
            simp only [decide_eq_false_iff_not]
            rintro ⟨_, h2, h3⟩
            omega
          rw [hp]
          simpa using ih
        · rw [if_neg hcond]
          simp only [Bool.or_eq_true, decide_eq_true_eq, not_or] at hcond
          have hp : decide (0 < effectiveLineCount m.original_code ∧
              lo ≤ effectiveLineCount m.original_code ∧
              effectiveLineCount m.original_code ≤ hi) = true := by
            simp only [decide_eq_true_eq]
            refine ⟨by omega, by omega, by omega⟩
          rw [hp]
          simpa using ih
  refine ⟨hmain, ?_⟩
  intro m lo hi hlo hlohi
  refine ⟨?_, ?_, ?_, ?_⟩ <;> intro hc
  · rw [hmain [m] lo hi]
    simp only [List.filter_cons, List.filter_nil, hc, decide_eq_true_eq]
    split_ifs with h
    · rfl
    · exact absurd ⟨hlo, le_refl lo, hlohi⟩ h
  · rw [hmain [m] lo hi]
    simp only [List.filter_cons, List.filter_nil, hc, decide_eq_true_eq]
    split_ifs with h
    · exfalso
      obtain ⟨h1, h2, _⟩ := h
      omega
    · rfl
  · rw [hmain [m] lo hi]
    simp only [List.filter_cons, List.filter_nil, hc, decide_eq_true_eq]
    split_ifs with h
    · rfl
    · exact absurd ⟨by omega, hlohi, le_refl hi⟩ h
  · rw [hmain [m] lo hi]
    simp only [List.filter_cons, List.filter_nil, hc, decide_eq_true_eq]
    split_ifs with h
    · exfalso
      obtain ⟨_, _, h3⟩ := h
      omega
    · rfl

/-- Witness for C2: under the defaults (3, 100), a record whose stripped
code has exactly three non-blank lines is kept and one with two lines is
dropped. -/
theorem filter_invalid_methods_spec_witness :
    filter_invalid_methods [⟨"m", 1, 3, "s", "a\nb\nc", []⟩] 3 100 =
      [⟨"m", 1, 3, "s", "a\nb\nc", []⟩] ∧
    filter_invalid_methods [⟨"m", 1, 2, "s", "a\nb", []⟩] 3 100 = [] :=
  ⟨(filter_invalid_methods_spec.2 ⟨"m", 1, 3, "s", "a\nb\nc", []⟩ 3 100
      (by decide) (by decide)).1 (by decide),
   (filter_invalid_methods_spec.2 ⟨"m", 1, 2, "s", "a\nb", []⟩ 3 100
      (by decide) (by decide)).2.1 (by decide)⟩

/-! ### Helper lemmas: comment stripping -/

theorem dropWhile_length_le (p : Char → Bool) :
    ∀ l : List Char, (l.dropWhile p).length ≤ l.length := by
  intro l
  induction l with
  | nil => simp
  | cons c t ih =>
    rw [List.dropWhile_cons]
    by_cases hp : p c = true
    · rw [if_pos hp]
      simp only [List.length_cons]
      omega
    · rw [if_neg hp]

theorem afterClose_cons_none (c : Char) (t : List Char) :
    afterClose (c :: t) = none ↔
      ¬(c = '*' ∧ t.head? = some '/') ∧ afterClose t = none := by
  by_cases h : c = '*' ∧ t.head? = some '/'
  · simp [afterClose, h]
  · simp [afterClose, h]

theorem afterClose_length :
    ∀ (l : List Char) (r : List Char), afterClose l = some r →
      r.length + 2 ≤ l.length := by
  intro l
  induction l with
  | nil => intro r h; simp [afterClose] at h
  | cons c t ih =>
    intro r h
    by_cases hc : c = '*' ∧ t.head? = some '/'
    · rw [afterClose, if_pos hc] at h
      have hr : t.tail = r := by simpa using h
      cases t with
      | nil => simp at hc
      | cons x u =>
        subst hr
        simp only [List.tail_cons, List.length_cons]
        omega
    · rw [afterClose, if_neg hc] at h
      have := ih r h
      simp only [List.length_cons]
      omega

theorem stripGo_fuel : ∀ (f g : Nat) (l : List Char),
    l.length ≤ f → l.length ≤ g → stripGo f l = stripGo g l := by
  intro f
  induction f with
  | zero =>
    intro g l hf hg
    have hnil : l = [] := List.length_eq_zero.mp (Nat.le_zero.mp hf)
    subst hnil
    cases g <;> rfl
  | succ f ih =>
    intro g l hf hg
    cases l with
    | nil => cases g <;> rfl
    | cons c rest =>
      cases g with
      | zero => simp at hg
      | succ g =>
        simp only [List.length_cons] at hf hg
        simp only [stripGo]
        by_cases hc : c = '/'
        · rw [if_pos hc, if_pos hc]
          by_cases h1 : rest.head? = some '/'
          · rw [if_pos h1, if_pos h1]
            have hd := dropWhile_length_le (fun c => decide (c ≠ '\n')) rest.tail
            have h2 : rest.tail.length ≤ rest.length := by
              rw [List.length_tail]; omega
            apply ih
            · unfold dropLine; omega
            · unfold dropLine; omega
          · rw [if_neg h1, if_neg h1]
            by_cases h2 : rest.head? = some '*'
            · rw [if_pos h2, if_pos h2]
              cases hac : afterClose rest.tail with
              | some r2 =>
                simp only []
                have hlen := afterClose_length rest.tail r2 hac
                have h3 : rest.tail.length ≤ rest.length := by
                  rw [List.length_tail]; omega
                apply ih <;> omega
              | none =>
                simp only []
                congr 1
                apply ih <;> omega
            · rw [if_neg h2, if_neg h2]
              congr 1
              apply ih <;> omega
        · rw [if_neg hc, if_neg hc]
          congr 1
          apply ih <;> omega

theorem stripC_cons_ne (c : Char) (t : List Char) (hc : ¬c = '/') :
    stripC (c :: t) = c :: stripC t := by
  unfold stripC
  simp only [List.length_cons, stripGo]
  rw [if_neg hc]

theorem stripC_slash_slash (t : List Char) :
    stripC ('/' :: '/' :: t) = stripC (dropLine t) := by
  have h : stripC ('/' :: '/' :: t) = stripGo (t.length + 1) (dropLine t) := rfl
  rw [h]
  exact stripGo_fuel _ _ _
    (le_trans (dropWhile_length_le _ t) (by omega)) (le_refl _)

theorem stripC_block_some (t r : List Char) (h : afterClose t = some r) :
    stripC ('/' :: '*' :: t) = stripC r := by
  have h0 : stripC ('/' :: '*' :: t) =
      (match afterClose t with
       | some rest2 => stripGo (t.length + 1) rest2
       | none => '/' :: stripGo (t.length + 1) ('*' :: t)) := rfl
  rw [h0, h]
  simp only []
  have := afterClose_length t r h
  exact stripGo_fuel _ _ _ (by omega) (le_refl _)

theorem stripC_block_none (t : List Char) (h : afterClose t = none) :
    stripC ('/' :: '*' :: t) = '/' :: '*' :: stripC t := by
  have h0 : stripC ('/' :: '*' :: t) =
      (match afterClose t with
       | some rest2 => stripGo (t.length + 1) rest2
       | none => '/' :: stripGo (t.length + 1) ('*' :: t)) := rfl
  rw [h0, h]
  rfl

theorem stripC_slash_other (t : List Char) (h1 : ¬t.head? = some '/')
    (h2 : ¬t.head? = some '*') : stripC ('/' :: t) = '/' :: stripC t := by
  have h0 : stripC ('/' :: t) =
      (if t.head? = some '/' then stripGo t.length (dropLine t.tail)
       else if t.head? = some '*' then
         (match afterClose t.tail with
          | some rest2 => stripGo t.length rest2
          | none => '/' :: stripGo t.length t)
       else '/' :: stripGo t.length t) := rfl
  rw [h0, if_neg h1, if_neg h2]
  rfl

theorem clean_cons_ne (c : Char) (t : List Char) (hc : ¬c = '/') :
    clean (c :: t) = clean t := by
  have h0 : clean (c :: t) =
      (if c = '/' then
        (if t.head? = some '/' then false
         else if t.head? = some '*' then (afterClose t.tail).isNone && clean t
         else clean t)
       else clean t) := rfl
  rw [h0, if_neg hc]

theorem clean_slash (t : List Char) :
    clean ('/' :: t) =
      (if t.head? = some '/' then false
       else if t.head? = some '*' then (afterClose t.tail).isNone && clean t
       else clean t) := rfl

theorem head_stripC (l : List Char) (h : (stripC l).head? = some '/') :
    l.head? = some '/' := by
  cases l with
  | nil => simp [stripC, stripGo] at h
  | cons c t =>
    by_cases hc : c = '/'
    · subst hc; rfl
    · rw [stripC_cons_ne c t hc] at h
      simp only [List.head?_cons, Option.some.injEq] at h
      exact absurd h hc

theorem afterClose_dropWhile_none (p : Char → Bool) :
    ∀ l : List Char, afterClose l = none → afterClose (l.dropWhile p) = none := by
  intro l
  induction l with
  | nil => intro h; simpa using h
  | cons c t ih =>
    intro h
    obtain ⟨_, h2⟩ := (afterClose_cons_none c t).mp h
    rw [List.dropWhile_cons]
    by_cases hp : p c = true
    · rw [if_pos hp]
      exact ih h2
    · rw [if_neg hp]
      exact h

theorem afterClose_stripC : ∀ (n : Nat) (l : List Char), l.length ≤ n →
    afterClose l = none → afterClose (stripC l) = none := by
  intro n
  induction n with
  | zero =>
    intro l hl h
    have hnil : l = [] := List.length_eq_zero.mp (Nat.le_zero.mp hl)
    subst hnil
    exact h
  | succ n ih =>
    intro l hl h
    cases l with
    | nil => exact h
    | cons c t =>
      simp only [List.length_cons] at hl
      obtain ⟨hnc, ht⟩ := (afterClose_cons_none c t).mp h
      have htlen : t.length ≤ n := by omega
      by_cases hc : c = '/'
      · subst hc
        cases t with
        | nil => decide
        | cons x u =>
          simp only [List.length_cons] at hl
          have hulen : u.length ≤ n := by omega
          by_cases hx : x = '/'
          · subst hx
            rw [stripC_slash_slash u]
            have hu : afterClose u = none := ((afterClose_cons_none '/' u).mp ht).2
            apply ih
            · exact le_trans (dropWhile_length_le _ u) (by omega)
            · exact afterClose_dropWhile_none _ u hu
          · by_cases hx2 : x = '*'
            · subst hx2
              obtain ⟨hstar, hu⟩ := (afterClose_cons_none '*' u).mp ht
              have hhu : ¬u.head? = some '/' := fun hh => hstar ⟨rfl, hh⟩
              rw [stripC_block_none u hu]
              rw [afterClose_cons_none]
              refine ⟨?_, ?_⟩
              · rintro ⟨h1, _⟩; exact absurd h1 (by decide)
              · rw [afterClose_cons_none]
                refine ⟨?_, ?_⟩
                · rintro ⟨_, hh⟩
                  exact hhu (head_stripC u hh)
                · exact ih u hulen hu
            · rw [stripC_slash_other (x :: u) (by simpa using hx) (by simpa using hx2)]
              rw [afterClose_cons_none]
              refine ⟨?_, ?_⟩
              · rintro ⟨h1, _⟩; exact absurd h1 (by decide)
              · exact ih (x :: u) (by simpa using hl) ht
      · rw [stripC_cons_ne c t hc]
        rw [afterClose_cons_none]
        refine ⟨?_, ?_⟩
        · rintro ⟨rfl, hh⟩
          exact hnc ⟨rfl, head_stripC t hh⟩
        · exact ih t htlen ht

theorem clean_fixed : ∀ l : List Char, clean l = true → stripC l = l := by
  intro l
  induction l with
  | nil => intro _; rfl
  | cons c t ih =>
    intro h
    by_cases hc : c = '/'
    · subst hc
      rw [clean_slash] at h
      by_cases h1 : t.head? = some '/'
      · rw [if_pos h1] at h
        exact absurd h (by decide)
      · rw [if_neg h1] at h
        by_cases h2 : t.head? = some '*'
        · rw [if_pos h2] at h
          rw [Bool.and_eq_true] at h
          obtain ⟨hiso, hcl⟩ := h
          rw [Option.isNone_iff_eq_none] at hiso
          cases t with
          | nil => simp at h2
          | cons x u =>
            have hx : x = '*' := by simpa using h2
            subst hx
            simp only [List.tail_cons] at hiso
            rw [stripC_block_none u hiso]
            have hstep := ih hcl
            rw [stripC_cons_ne '*' u (by decide)] at hstep
            simp only [List.cons.injEq, true_and] at hstep
            rw [hstep]
        · rw [if_neg h2] at h
          rw [stripC_slash_other t h1 h2, ih h]
    · rw [clean_cons_ne c t hc] at h
      rw [stripC_cons_ne c t hc, ih h]

theorem clean_stripC : ∀ (n : Nat) (l : List Char), l.length ≤ n →
    clean (stripC l) = true := by
  intro n
  induction n with
  | zero =>
    intro l hl
    have hnil : l = [] := List.length_eq_zero.mp (Nat.le_zero.mp hl)
    subst hnil
    rfl
  | succ n ih =>
    intro l hl
    cases l with
    | nil => rfl
    | cons c t =>
      simp only [List.length_cons] at hl
      have htlen : t.length ≤ n := by omega
      by_cases hc : c = '/'
      · subst hc
        cases t with
        | nil => decide
        | cons x u =>
          simp only [List.length_cons] at hl
          have hulen : u.length ≤ n := by omega
          by_cases hx : x = '/'
          · subst hx
            rw [stripC_slash_slash u]
            exact ih _ (le_trans (dropWhile_length_le _ u) (by omega))
          · by_cases hx2 : x = '*'
            · subst hx2
              cases hac : afterClose u with
              | some r =>
                rw [stripC_block_some u r hac]
                have := afterClose_length u r hac
                exact ih r (by omega)
              | none =>
                rw [stripC_block_none u hac]
                rw [clean_slash]
                rw [if_neg (by simp), if_pos (by simp)]
                rw [Bool.and_eq_true]
                constructor
                · rw [Option.isNone_iff_eq_none]
                  simp only [List.tail_cons]
                  exact afterClose_stripC n u hulen hac
                · rw [clean_cons_ne '*' (stripC u) (by decide)]
                  exact ih u hulen
            · rw [stripC_slash_other (x :: u) (by simpa using hx) (by simpa using hx2)]
              rw [stripC_cons_ne x u hx]
              rw [clean_slash]
              rw [if_neg (by simpa using hx), if_neg (by simpa using hx2)]
              rw [clean_cons_ne x (stripC u) hx]
              exact ih u hulen
      · rw [stripC_cons_ne c t hc]
        rw [clean_cons_ne c (stripC t) hc]
        exact ih t htlen

theorem stripC_idem (l : List Char) : stripC (stripC l) = stripC l :=
  clean_fixed (stripC l) (clean_stripC l.length l (le_refl _))

/-- C5: comment stripping is idempotent — removing `//`-to-end-of-line runs
and non-greedy `/*...*/` blocks a second time changes nothing. -/
theorem strip_java_comments_idempotent (s : String) :
    _strip_java_comments_for_check (_strip_java_comments_for_check s) =
      _strip_java_comments_for_check s := by
  unfold _strip_java_comments_for_check
  congr 1
  exact stripC_idem s.data
